import Mathlib

/-!
Verification of the deep-object-reid classification components.

This file gives a shallow embedding of

* `torchreid/models/ml_decoder.py` — the group-decoding arithmetic of
  `MLDecoder.__init__` (number of groups, duplicate factor) and the
  flatten/truncate/bias tail of `MLDecoder.forward`;
* `torchreid/integration/sc/model_wrappers/classification.py` and
  `torchreid/integration/sc/utils.py` — `NewClassification.postprocess`,
  `softmax_numpy`, `sigmoid_numpy`, `get_multiclass_predictions` and
  `get_multilabel_predictions`.

Python integers are modelled by `ℤ`; the float arithmetic of the decoder
constructor (`num_classes / embed_len_decoder + 0.999`) and of the numpy
post-processing is modelled by exact rational / real arithmetic.
-/

namespace DeepObjectReid

/-- The group count computed by `MLDecoder.__init__`
(`src/torchreid/models/ml_decoder.py`, lines 117-119):
`embed_len_decoder = 100 if num_of_groups < 0 else num_of_groups`,
then capped: `if embed_len_decoder > self.num_classes: embed_len_decoder = self.num_classes`. -/
def embed_len_decoder (num_classes num_of_groups : ℤ) : ℤ :=
  let e : ℤ := if num_of_groups < 0 then 100 else num_of_groups
  if e > num_classes then num_classes else e

/-- The duplicate factor computed by `MLDecoder.__init__` (line 141):
`self.decoder.duplicate_factor = int(self.num_classes / embed_len_decoder + 0.999)`,
modelled in exact rational arithmetic.  For `num_classes > 0` and `G > 0` the
argument of `int(...)` is positive, so Python's truncation toward zero is the
floor.  (Defined only for `G ≠ 0`; the `G = 0` case raises `ZeroDivisionError`
in Python and is modelled by `mlDecoder_init` returning `none`.) -/
def duplicate_factor (num_classes G : ℤ) : ℤ :=
  ⌊(num_classes : ℚ) / (G : ℚ) + 999 / 1000⌋

/-- The group fully-connected configuration stored on the decoder. -/
structure GroupFCConfig where
  embed_len : ℤ
  dup_factor : ℤ
  deriving DecidableEq

/-- The part of `MLDecoder.__init__` that computes the group count and the
duplicate factor.  Python's `num_classes / embed_len_decoder` raises
`ZeroDivisionError` when `embed_len_decoder = 0`, which is modelled by `none`. -/
def mlDecoder_init (num_classes num_of_groups : ℤ) : Option GroupFCConfig :=
  let G := embed_len_decoder num_classes num_of_groups
  if G = 0 then none
  else some ⟨G, duplicate_factor num_classes G⟩

/-- The tail of `MLDecoder.forward` (lines 168-171) for a single sample:
`out_extrap` (one row of length `duplicate_factor` per group) is flattened in
group order (`flatten(1)`), truncated to `num_classes` entries (`[:, :self.decoder.num_classes]`),
and the bias of length `num_classes` is added (`h_out += self.decoder.duplicate_pooling_bias`).
The elementwise addition requires matching lengths; a length mismatch raises a
size-mismatch `RuntimeError` in PyTorch, modelled by `none`.  (PyTorch
broadcasting would also accept a size-1 operand, but a truncated length of 1
with `num_classes > 1` is unreachable for any configuration produced by
`mlDecoder_init`.) -/
def mlDecoder_logits {α : Type} [Add α] (num_classes : ℕ)
    (groupOut : List (List α)) (bias : List α) : Option (List α) :=
  if (groupOut.flatten.take num_classes).length = bias.length then
    some (List.zipWith (fun a b => a + b) (groupOut.flatten.take num_classes) bias)
  else none

/-- numpy's `np.isclose(a, b, rtol, atol)` predicate:
`absolute(a - b) <= (atol + rtol * absolute(b))` (defaults `rtol = 1e-05`,
`atol = 1e-08`). -/
def np_isclose {α : Type} [LinearOrderedField α] (a b rtol atol : α) : Bool :=
  decide (|a - b| ≤ atol + rtol * |b|)

/-- The activation decision of `NewClassification.postprocess`
(`classification.py`, lines 44-53): `self.activate = False`, then
`if not np.isclose(np.sum(outputs), 1.0, atol=0.01): self.activate = True`.
The call keeps numpy's default relative tolerance `rtol = 1e-05`. -/
def postprocess_activate {α : Type} [LinearOrderedField α] (outputs : List α) : Bool :=
  ! np_isclose outputs.sum 1 (1 / 100000) (1 / 100)

/-- `sigmoid_numpy(x) = 1. / (1. + np.exp(-1. * x))` (`classification.py`
lines 56-57, `utils.py` lines 313-314), elementwise on one entry. -/
noncomputable def sigmoid_numpy (x : ℝ) : ℝ :=
  1 / (1 + Real.exp (-1 * x))

/-- `softmax_numpy(x)`: `x = np.exp(x); x /= np.sum(x)` (`classification.py`
lines 60-63, `utils.py` lines 317-320).  The sum is that of the exponentiated
vector, fixed before the elementwise division; no max-subtraction
stabilization is performed. -/
noncomputable def softmax_numpy (x : List ℝ) : List ℝ :=
  (x.map Real.exp).map (fun v => v / (x.map Real.exp).sum)

/-- Scanning helper for `np.argmax`: fold over the remaining entries keeping
the best (index, value) pair seen so far, replacing it only on a strictly
larger value (so the first occurrence of the maximum wins, as numpy
documents). -/
def argmaxFrom {α : Type} [LinearOrder α] : ℕ × α → ℕ → List α → ℕ × α
  | best, _, [] => best
  | best, i, x :: xs =>
    if best.2 < x then argmaxFrom (i, x) (i + 1) xs else argmaxFrom best (i + 1) xs

/-- `np.argmax`: index of the first occurrence of the maximum value
(`0` on the empty list, where numpy raises instead). -/
def np_argmax {α : Type} [LinearOrder α] : List α → ℕ
  | [] => 0
  | x :: xs => (argmaxFrom (0, x) 1 xs).1

/-- The label-entity multi-class selector `get_multiclass_predictions`
(`utils.py`, lines 323-327): `i = np.argmax(logits)`; `if activate: logits =
softmax_numpy(logits)`; return the single pair `(i, logits[i])` (the returned
`ScoredLabel(labels[i], probability=logits[i])` is modelled by the index
paired with the score). -/
noncomputable def get_multiclass_predictions (logits : List ℝ) (activate : Bool) :
    List (ℕ × ℝ) :=
  [(np_argmax logits,
    ((if activate then softmax_numpy logits else logits).getD (np_argmax logits) 0))]

/-- The selection loop shared by both `get_multilabel_predictions` versions
(`classification.py` lines 78-88, `utils.py` lines 330-340):
`for i in range(n): if logits[i] > pos_thr: append (i, logits[i])`. -/
def multilabel_select {α : Type} [LinearOrder α] (scores : List α) (pos_thr : α) :
    List (ℕ × α) :=
  scores.enum.filter (fun p => decide (pos_thr < p.2))

/-- `get_multilabel_predictions(logits, pos_thr=0.5, activate)`:
`if activate: logits = sigmoid_numpy(logits)`, then the threshold loop. -/
noncomputable def get_multilabel_predictions (logits : List ℝ) (pos_thr : ℝ)
    (activate : Bool) : List (ℕ × ℝ) :=
  multilabel_select (if activate then logits.map sigmoid_numpy else logits) pos_thr

/-- The documented contract of `np.argpartition(scores, -1)`: the result is a
permutation of `range(len(scores))` whose last entry indexes a maximum of
`scores`.  numpy explicitly leaves the order of the elements within the
partitions (and hence which of several tied maxima lands last) undefined. -/
def ArgpartitionLastSpec (scores : List ℝ) (perm : List ℕ) : Prop :=
  perm.Perm (List.range scores.length) ∧
  ∀ j ∈ perm, scores.getD j 0 ≤ scores.getD (perm.getD (perm.length - 1) 0) 0

/-- The top-k multi-class selector `get_multiclass_predictions`
(`classification.py`, lines 66-75) at `topk = 1`, given the index array
`perm` produced by `np.argpartition(scores, -1)`:
`indices = perm[-1:]`; for a single retained index the `argsort`-descending
reordering is the identity, so the result is `[(perm[-1], scores[perm[-1]])]`. -/
noncomputable def get_multiclass_predictions_topk1 (logits : List ℝ) (activate : Bool)
    (perm : List ℕ) : List (ℕ × ℝ) :=
  [(perm.getD (perm.length - 1) 0,
    ((if activate then softmax_numpy logits else logits).getD
      (perm.getD (perm.length - 1) 0) 0))]

/-- `NewClassification.postprocess` (`classification.py`, lines 44-53) on one
already-squeezed output vector.  The mutable field `self.activate` is modelled
by threading its previous value `activate0`; the method overwrites it from the
current outputs before any use.  The multi-class branch delegates to numpy
code whose tie behaviour is implementation-defined, so it is abstracted as the
deterministic function `mc_sel` (any fixed implementation of
`get_multiclass_predictions(outputs, topk, activate)`). -/
noncomputable def postprocess (mc_sel : List ℝ → ℕ → Bool → List (ℕ × ℝ))
    (multilabel : Bool) (topk : ℕ) (activate0 : Bool) (outputs : List ℝ) :
    Bool × List (ℕ × ℝ) :=
  let activate := postprocess_activate outputs
  (activate,
    if multilabel then get_multilabel_predictions outputs (1 / 2) activate
    else mc_sel outputs topk activate)

/-! ### Helper lemmas about the decoder arithmetic -/

/-- Case analysis of `embed_len_decoder`: the 100-group default applies only to
negative `num_of_groups`; `num_of_groups = 0` yields a group count of `0`. -/
lemma embed_len_decoder_eq (num_classes num_of_groups : ℤ) (hc : 0 < num_classes) :
    embed_len_decoder num_classes num_of_groups =
      if num_of_groups < 0 then min 100 num_classes else min num_of_groups num_classes := by
  simp only [embed_len_decoder]
  split_ifs <;> omega

/-- For a positive group count of at most 1000, the duplicate factor
`⌊num_classes / G + 0.999⌋` equals the exact ceiling `⌈num_classes / G⌉`. -/
lemma duplicate_factor_eq_ceil_of_le (num_classes G : ℤ) (hG : 0 < G) (hG1000 : G ≤ 1000) :
    duplicate_factor num_classes G = ⌈(num_classes : ℚ) / G⌉ := by
  have hGQ : (0 : ℚ) < (G : ℚ) := by exact_mod_cast hG
  have hA : (num_classes : ℚ) / G ≤ ⌈(num_classes : ℚ) / G⌉ := Int.le_ceil _
  have hB : (⌈(num_classes : ℚ) / G⌉ : ℚ) < (num_classes : ℚ) / G + 1 :=
    Int.ceil_lt_add_one _
  have hBmul : (G : ℚ) * ⌈(num_classes : ℚ) / G⌉ < num_classes + G := by
    have h1 := (mul_lt_mul_left hGQ).mpr hB
    have h2 : (G : ℚ) * ((num_classes : ℚ) / G + 1) = num_classes + G := by
      field_simp
    linarith
  have hBint : G * ⌈(num_classes : ℚ) / G⌉ ≤ num_classes + G - 1 := by
    have h3 : G * ⌈(num_classes : ℚ) / G⌉ < num_classes + G := by exact_mod_cast hBmul
    omega
  have hAint : num_classes ≤ G * ⌈(num_classes : ℚ) / G⌉ := by
    have h4 : (num_classes : ℚ) ≤ (G : ℚ) * ⌈(num_classes : ℚ) / G⌉ := by
      have := (mul_le_mul_left hGQ).mpr hA
      calc (num_classes : ℚ) = G * ((num_classes : ℚ) / G) := by field_simp
        _ ≤ G * ⌈(num_classes : ℚ) / G⌉ := this
    exact_mod_cast h4
  rw [duplicate_factor, Int.floor_eq_iff]
  constructor
  · rw [div_add' _ _ _ (ne_of_gt hGQ), le_div_iff₀ hGQ]
    have key : 1000 * (G * ⌈(num_classes : ℚ) / G⌉) ≤
        1000 * num_classes + 999 * G := by nlinarith [hBint, hG1000]
    have keyQ : (1000 : ℚ) * (G * ⌈(num_classes : ℚ) / G⌉) ≤
        1000 * num_classes + 999 * G := by exact_mod_cast key
    nlinarith [keyQ]
  · have h5 : (num_classes : ℚ) / G ≤ ⌈(num_classes : ℚ) / G⌉ := hA
    have : (999 : ℚ) / 1000 < 1 := by norm_num
    linarith

/-- The truncated, bias-shifted logits have length `num_classes` as soon as the
flattened group outputs cover the vocabulary. -/
lemma mlDecoder_logits_length {α : Type} [Add α] (num_classes : ℕ)
    (groupOut : List (List α)) (bias : List α)
    (hcover : num_classes ≤ groupOut.flatten.length)
    (hbias : bias.length = num_classes) :
    ∃ out, mlDecoder_logits num_classes groupOut bias = some out ∧
      out.length = num_classes := by
  have htrunc : (groupOut.flatten.take num_classes).length = num_classes := by
    rw [List.length_take]
    exact Nat.min_eq_left hcover
  have hcond : (groupOut.flatten.take num_classes).length = bias.length := by
    rw [htrunc, hbias]
  refine ⟨List.zipWith (fun a b => a + b) (groupOut.flatten.take num_classes) bias, ?_, ?_⟩
  · simp only [mlDecoder_logits, if_pos hcond]
  · simp [List.length_zipWith, htrunc, hbias]

/-- A positive group count times the ceiling of `num_classes / G` covers the
vocabulary. -/
lemma le_mul_ceil (num_classes G : ℤ) (hG : 0 < G) :
    num_classes ≤ G * ⌈(num_classes : ℚ) / G⌉ := by
  have hGQ : (0 : ℚ) < (G : ℚ) := by exact_mod_cast hG
  have h4 : (num_classes : ℚ) ≤ (G : ℚ) * ⌈(num_classes : ℚ) / G⌉ := by
    have h5 := (mul_le_mul_left hGQ).mpr (Int.le_ceil ((num_classes : ℚ) / G))
    calc (num_classes : ℚ) = G * ((num_classes : ℚ) / G) := by field_simp
      _ ≤ G * ⌈(num_classes : ℚ) / G⌉ := h5
  exact_mod_cast h4

/-- Flattening a list of lists of constant length `k` gives `length * k`
entries. -/
lemma flatten_length_of_const {α : Type} (L : List (List α)) (k : ℕ)
    (h : ∀ g ∈ L, g.length = k) : L.flatten.length = L.length * k := by
  induction L with
  | nil => simp
  | cons a t ih =>
    simp only [List.flatten_cons, List.length_append, List.length_cons]
    rw [h a (by simp), ih (fun g hg => h g (by simp [hg]))]
    ring

/-! ### Claim theorems: MLDecoder group arithmetic -/

/-- C3 counterexample: with `num_of_groups = 0` and `num_classes = 5` the code
sets the group count to `0`, not to `min 100 num_classes = 5` as the claim's
"every other case" clause demands. -/
theorem embed_len_decoder_zero_groups_cex :
    embed_len_decoder 5 0 = 0 ∧ embed_len_decoder 5 0 ≠ min 100 5 := by decide

/-- C3 (amended): for `num_classes > 0`, the decoder group count is
`min num_of_groups num_classes` whenever `num_of_groups > 0` and
`min 100 num_classes` whenever `num_of_groups < 0`; for `num_of_groups = 0` the
count is `0` (and the constructor subsequently divides by zero). -/
theorem embed_len_decoder_cases (num_classes num_of_groups : ℤ) (hc : 0 < num_classes) :
    (0 < num_of_groups →
      embed_len_decoder num_classes num_of_groups = min num_of_groups num_classes) ∧
    (num_of_groups < 0 →
      embed_len_decoder num_classes num_of_groups = min 100 num_classes) ∧
    (num_of_groups = 0 → embed_len_decoder num_classes num_of_groups = 0) := by
  refine ⟨?_, ?_, ?_⟩ <;> intro h <;>
    rw [embed_len_decoder_eq num_classes num_of_groups hc] <;>
    split_ifs <;> omega

/-- Witness for C3 (amended) at `num_classes = 5`, `num_of_groups = 3`. -/
theorem embed_len_decoder_cases_witness :
    (0 : ℤ) < 5 ∧
    ((0 < (3 : ℤ) → embed_len_decoder 5 3 = min 3 5) ∧
     ((3 : ℤ) < 0 → embed_len_decoder 5 3 = min 100 5) ∧
     ((3 : ℤ) = 0 → embed_len_decoder 5 3 = 0)) :=
  ⟨by decide, embed_len_decoder_cases 5 3 (by decide)⟩

/-- C2 counterexample: at `num_classes = 2003` and `num_of_groups = 1001` the
configured group count is `G = 1001`, and the stored duplicate factor
`int(2003 / 1001 + 0.999) = 2` differs from `⌈2003 / 1001⌉ = 3`. -/
theorem duplicate_factor_not_ceil_cex :
    embed_len_decoder 2003 1001 = 1001 ∧
    duplicate_factor 2003 1001 = 2 ∧
    ⌈(2003 : ℚ) / 1001⌉ = 3 := by
  refine ⟨by decide, by norm_num [duplicate_factor], ?_⟩
  rw [Int.ceil_eq_iff]
  norm_num

/-- C2 (amended): for `num_classes > 0` and a configured group count
`0 < G ≤ 1000`, the stored duplicate factor `⌊num_classes / G + 0.999⌋` equals
the exact integer ceiling `⌈num_classes / G⌉`.  (For `G > 1000` it can fall one
short of the ceiling, see the counterexample.) -/
theorem duplicate_factor_eq_ceil (num_classes G : ℤ)
    (hc : 0 < num_classes) (hG : 0 < G) (hG1000 : G ≤ 1000) :
    duplicate_factor num_classes G = ⌈(num_classes : ℚ) / G⌉ :=
  duplicate_factor_eq_ceil_of_le num_classes G hG hG1000

/-- Witness for C2 (amended) at `num_classes = 7`, `G = 3`:
`duplicate_factor = ⌈7/3⌉ = 3`. -/
theorem duplicate_factor_eq_ceil_witness :
    (0 : ℤ) < 7 ∧ (0 : ℤ) < 3 ∧ (3 : ℤ) ≤ 1000 ∧
    duplicate_factor 7 3 = ⌈(7 : ℚ) / 3⌉ :=
  ⟨by decide, by decide, by decide, duplicate_factor_eq_ceil 7 3 (by decide) (by decide) (by decide)⟩

/-- C8: constructing `MLDecoder` with `num_of_groups = 0` and any
`num_classes > 0` is not total: the group count becomes `0` and
`num_classes / embed_len_decoder` raises `ZeroDivisionError`, so the modelled
constructor returns `none` instead of falling back to the 100-group default. -/
theorem mlDecoder_init_zero_groups_fails (num_classes : ℤ) (hc : 0 < num_classes) :
    embed_len_decoder num_classes 0 = 0 ∧ mlDecoder_init num_classes 0 = none := by
  have h0 : embed_len_decoder num_classes 0 = 0 :=
    (embed_len_decoder_cases num_classes 0 hc).2.2 rfl
  exact ⟨h0, by simp [mlDecoder_init, h0]⟩

/-- Witness for C8 at `num_classes = 5`. -/
theorem mlDecoder_init_zero_groups_fails_witness :
    (0 : ℤ) < 5 ∧ (embed_len_decoder 5 0 = 0 ∧ mlDecoder_init 5 0 = none) :=
  ⟨by decide, mlDecoder_init_zero_groups_fails 5 (by decide)⟩

/-- C1 counterexample: at `num_classes = 2003`, `num_of_groups = 1001` the
configured `G = 1001` and duplicate factor `2` give `G * duplicate_factor =
2002 < 2003`, and the forward tail fails (size mismatch between the truncated
2002-entry logits and the 2003-entry bias) instead of producing a
`num_classes`-length vector. -/
theorem mlDecoder_forward_num_classes_cex :
    embed_len_decoder 2003 1001 = 1001 ∧
    duplicate_factor 2003 1001 = 2 ∧
    ¬ (2003 ≤ embed_len_decoder 2003 1001 *
        duplicate_factor 2003 (embed_len_decoder 2003 1001)) ∧
    mlDecoder_logits 2003 (List.replicate 1001 (List.replicate 2 (0 : ℝ)))
      (List.replicate 2003 (0 : ℝ)) = none := by
  have h1 : embed_len_decoder 2003 1001 = 1001 := by decide
  have h2 : duplicate_factor 2003 1001 = 2 := by norm_num [duplicate_factor]
  refine ⟨h1, h2, ?_, ?_⟩
  · rw [h1, h2]
    norm_num
  · have hflat : (List.replicate 1001 (List.replicate 2 (0 : ℝ))).flatten.length = 2002 := by
      rw [flatten_length_of_const _ 2 (fun g hg => by
        rw [List.eq_of_mem_replicate hg, List.length_replicate]),
        List.length_replicate]
    simp only [mlDecoder_logits, List.length_take, hflat, List.length_replicate]
    norm_num

/-- C1 (amended): for every configuration with `num_classes > 0` and a
configured group count `0 < G ≤ 1000`, `G * duplicate_factor ≥ num_classes`,
and the flattened-then-truncated logits vector produced by the forward tail
(group-major flatten, slice to `num_classes`, add the `num_classes`-length
bias) exists and has length exactly `num_classes`.  (For `G > 1000` this can
fail, see the counterexample.) -/
theorem mlDecoder_forward_num_classes (num_classes num_of_groups : ℤ)
    (hc : 0 < num_classes)
    (hG : 0 < embed_len_decoder num_classes num_of_groups)
    (hG1000 : embed_len_decoder num_classes num_of_groups ≤ 1000) :
    num_classes ≤ embed_len_decoder num_classes num_of_groups *
        duplicate_factor num_classes (embed_len_decoder num_classes num_of_groups) ∧
    ∀ (groupOut : List (List ℝ)) (bias : List ℝ),
      groupOut.length = (embed_len_decoder num_classes num_of_groups).toNat →
      (∀ g ∈ groupOut, g.length =
        (duplicate_factor num_classes (embed_len_decoder num_classes num_of_groups)).toNat) →
      bias.length = num_classes.toNat →
      ∃ out, mlDecoder_logits num_classes.toNat groupOut bias = some out ∧
        out.length = num_classes.toNat := by
  have hdfceil := duplicate_factor_eq_ceil_of_le num_classes
    (embed_len_decoder num_classes num_of_groups) hG hG1000
  have hmain : num_classes ≤ embed_len_decoder num_classes num_of_groups *
      duplicate_factor num_classes (embed_len_decoder num_classes num_of_groups) := by
    rw [hdfceil]
    exact le_mul_ceil num_classes _ hG
  refine ⟨hmain, ?_⟩
  intro groupOut bias hlen hrows hbias
  have hdfpos : 0 < duplicate_factor num_classes
      (embed_len_decoder num_classes num_of_groups) := by nlinarith [hmain, hc, hG]
  have hle : num_classes.toNat ≤
      (embed_len_decoder num_classes num_of_groups).toNat *
        (duplicate_factor num_classes (embed_len_decoder num_classes num_of_groups)).toNat := by
    zify
    rw [Int.toNat_of_nonneg (le_of_lt hc), Int.toNat_of_nonneg (le_of_lt hG),
      Int.toNat_of_nonneg (le_of_lt hdfpos)]
    exact hmain
  have hcover : num_classes.toNat ≤ groupOut.flatten.length := by
    rw [flatten_length_of_const groupOut _ hrows, hlen]
    exact hle
  exact mlDecoder_logits_length num_classes.toNat groupOut bias hcover hbias

/-- Witness for C1 (amended) at `num_classes = 5`, `num_of_groups = 2`
(`G = 2`, duplicate factor `3`), applied to concrete group outputs of shape
`2 × 3` and a bias of length `5`. -/
theorem mlDecoder_forward_num_classes_witness :
    (0 : ℤ) < 5 ∧ 0 < embed_len_decoder 5 2 ∧ embed_len_decoder 5 2 ≤ 1000 ∧
    ((5 : ℤ) ≤ embed_len_decoder 5 2 * duplicate_factor 5 (embed_len_decoder 5 2) ∧
    ∀ (groupOut : List (List ℝ)) (bias : List ℝ),
      groupOut.length = (embed_len_decoder 5 2).toNat →
      (∀ g ∈ groupOut, g.length = (duplicate_factor 5 (embed_len_decoder 5 2)).toNat) →
      bias.length = (5 : ℤ).toNat →
      ∃ out, mlDecoder_logits (5 : ℤ).toNat groupOut bias = some out ∧
        out.length = (5 : ℤ).toNat) :=
  ⟨by decide, by decide, by decide, mlDecoder_forward_num_classes 5 2 (by decide) (by decide) (by decide)⟩

/-! ### Helper lemmas about the numpy post-processing -/

lemma getD_mem_of_lt {α : Type} (l : List α) (m : ℕ) (d : α) (h : m < l.length) :
    l.getD m d ∈ l := by
  rw [List.getD_eq_getElem l d h]
  exact List.getElem_mem h

lemma argmaxFrom_spec {α : Type} [LinearOrder α] (d : α) :
    ∀ (xs : List α) (bi i : ℕ) (bv : α),
      (argmaxFrom (bi, bv) i xs = (bi, bv) ∧ ∀ y ∈ xs, y ≤ bv) ∨
      (∃ k, k < xs.length ∧
        argmaxFrom (bi, bv) i xs = (i + k, xs.getD k d) ∧
        bv < xs.getD k d ∧
        (∀ m, m < k → xs.getD m d < xs.getD k d) ∧
        (∀ m, m < xs.length → xs.getD m d ≤ xs.getD k d)) := by
  intro xs
  induction xs with
  | nil =>
    intro bi i bv
    left
    exact ⟨rfl, by simp⟩
  | cons x t ih =>
    intro bi i bv
    by_cases hx : bv < x
    · rw [show argmaxFrom (bi, bv) i (x :: t) = argmaxFrom (i, x) (i + 1) t by
        simp [argmaxFrom, hx]]
      rcases ih i (i + 1) x with ⟨heq, hall⟩ | ⟨k, hk, heq, hlt, hfirst, hmax⟩
      · right
        refine ⟨0, by simp, by simpa using heq, by simpa using hx, ?_, ?_⟩
        · intro m hm; omega
        · intro m hm
          match m with
          | 0 => exact le_refl _
          | Nat.succ m' =>
            show t.getD m' d ≤ x
            exact hall _ (getD_mem_of_lt t m' d (by simpa using hm))
      · right
        refine ⟨k + 1, by simpa using hk, ?_, ?_, ?_, ?_⟩
        · rw [heq]
          show (i + 1 + k, t.getD k d) = (i + (k + 1), (x :: t).getD (k + 1) d)
          rw [show i + 1 + k = i + (k + 1) by omega]
          exact rfl
        · show bv < (x :: t).getD (k + 1) d
          exact lt_trans hx hlt
        · intro m hm
          match m with
          | 0 => exact hlt
          | Nat.succ m' =>
            show t.getD m' d < t.getD k d
            exact hfirst m' (by omega)
        · intro m hm
          match m with
          | 0 => exact le_of_lt hlt
          | Nat.succ m' =>
            show t.getD m' d ≤ t.getD k d
            exact hmax m' (by simpa using hm)
    · rw [show argmaxFrom (bi, bv) i (x :: t) = argmaxFrom (bi, bv) (i + 1) t by
        simp [argmaxFrom, hx]]
      rcases ih bi (i + 1) bv with ⟨heq, hall⟩ | ⟨k, hk, heq, hlt, hfirst, hmax⟩
      · left
        refine ⟨heq, ?_⟩
        intro y hy
        rcases List.mem_cons.mp hy with rfl | hy'
        · exact le_of_not_lt hx
        · exact hall y hy'
      · right
        refine ⟨k + 1, by simpa using hk, ?_, ?_, ?_, ?_⟩
        · rw [heq]
          show (i + 1 + k, t.getD k d) = (i + (k + 1), (x :: t).getD (k + 1) d)
          rw [show i + 1 + k = i + (k + 1) by omega]
          exact rfl
        · exact hlt
        · intro m hm
          match m with
          | 0 => exact lt_of_le_of_lt (le_of_not_lt hx) hlt
          | Nat.succ m' =>
            show t.getD m' d < t.getD k d
            exact hfirst m' (by omega)
        · intro m hm
          match m with
          | 0 => exact le_trans (le_of_not_lt hx) (le_of_lt hlt)
          | Nat.succ m' =>
            show t.getD m' d ≤ t.getD k d
            exact hmax m' (by simpa using hm)

lemma np_argmax_spec {α : Type} [LinearOrder α] (d : α) (l : List α) (h : l ≠ []) :
    np_argmax l < l.length ∧
    (∀ m, m < l.length → l.getD m d ≤ l.getD (np_argmax l) d) ∧
    (∀ m, m < np_argmax l → l.getD m d < l.getD (np_argmax l) d) := by
  match l, h with
  | x :: t, _ =>
    have hnp : np_argmax (x :: t) = (argmaxFrom (0, x) 1 t).1 := rfl
    rcases argmaxFrom_spec d t 0 1 x with ⟨heq, hall⟩ | ⟨k, hk, heq, hlt, hfirst, hmax⟩
    · have h0 : np_argmax (x :: t) = 0 := by rw [hnp, heq]
      rw [h0]
      refine ⟨by simp, ?_, ?_⟩
      · intro m hm
        match m with
        | 0 => exact le_refl _
        | Nat.succ m' =>
          show t.getD m' d ≤ x
          exact hall _ (getD_mem_of_lt t m' d (by simpa using hm))
      · intro m hm
        omega
    · have h1 : np_argmax (x :: t) = k + 1 := by rw [hnp, heq]; simp [Nat.add_comm]
      rw [h1]
      have hget : (x :: t).getD (k + 1) d = t.getD k d := rfl
      rw [hget]
      refine ⟨by simpa using hk, ?_, ?_⟩
      · intro m hm
        match m with
        | 0 => exact le_of_lt hlt
        | Nat.succ m' =>
          show t.getD m' d ≤ t.getD k d
          exact hmax m' (by simpa using hm)
      · intro m hm
        match m with
        | 0 => exact hlt
        | Nat.succ m' =>
          show t.getD m' d < t.getD k d
          exact hfirst m' (by omega)

lemma argmaxFrom_map {α β : Type} [LinearOrder α] [LinearOrder β] {f : α → β}
    (hf : StrictMono f) :
    ∀ (xs : List α) (bi i : ℕ) (bv : α),
      argmaxFrom (bi, f bv) i (xs.map f) =
        ((argmaxFrom (bi, bv) i xs).1, f (argmaxFrom (bi, bv) i xs).2) := by
  intro xs
  induction xs with
  | nil => intro bi i bv; rfl
  | cons x t ih =>
    intro bi i bv
    show argmaxFrom (bi, f bv) i (f x :: t.map f) = _
    by_cases hx : bv < x
    · rw [show argmaxFrom (bi, f bv) i (f x :: t.map f) =
          argmaxFrom (i, f x) (i + 1) (t.map f) by simp [argmaxFrom, hf hx]]
      rw [show argmaxFrom (bi, bv) i (x :: t) = argmaxFrom (i, x) (i + 1) t by
        simp [argmaxFrom, hx]]
      exact ih i (i + 1) x
    · have hfx : ¬ f bv < f x := by simpa [hf.lt_iff_lt] using hx
      rw [show argmaxFrom (bi, f bv) i (f x :: t.map f) =
          argmaxFrom (bi, f bv) (i + 1) (t.map f) by simp [argmaxFrom, hfx]]
      rw [show argmaxFrom (bi, bv) i (x :: t) = argmaxFrom (bi, bv) (i + 1) t by
        simp [argmaxFrom, hx]]
      exact ih bi (i + 1) bv

lemma np_argmax_map {α β : Type} [LinearOrder α] [LinearOrder β] {f : α → β}
    (hf : StrictMono f) (l : List α) :
    np_argmax (l.map f) = np_argmax l := by
  match l with
  | [] => rfl
  | x :: t =>
    show (argmaxFrom (0, f x) 1 (t.map f)).1 = (argmaxFrom (0, x) 1 t).1
    rw [argmaxFrom_map hf t 0 1 x]

lemma sum_map_div (l : List ℝ) (c : ℝ) :
    (l.map (fun v => v / c)).sum = l.sum / c := by
  induction l with
  | nil => simp
  | cons a t ih => simp [ih, add_div]

lemma softmax_numpy_eq (x : List ℝ) :
    softmax_numpy x = x.map (fun v => Real.exp v / (x.map Real.exp).sum) := by
  rw [softmax_numpy, List.map_map]
  rfl

lemma exp_sum_pos (x : List ℝ) (h : x ≠ []) : 0 < (x.map Real.exp).sum := by
  apply List.sum_pos
  · intro y hy
    rcases List.mem_map.mp hy with ⟨a, _, rfl⟩
    exact Real.exp_pos a
  · simpa using h

lemma softmax_strictMono (x : List ℝ) (h : x ≠ []) :
    StrictMono (fun v : ℝ => Real.exp v / (x.map Real.exp).sum) := by
  intro a b hab
  have h1 : Real.exp a < Real.exp b := Real.exp_lt_exp.mpr hab
  have hS := exp_sum_pos x h
  show Real.exp a / (x.map Real.exp).sum < Real.exp b / (x.map Real.exp).sum
  rw [div_eq_mul_inv, div_eq_mul_inv]
  exact mul_lt_mul_of_pos_right h1 (inv_pos.mpr hS)

lemma softmax_argmax (x : List ℝ) (h : x ≠ []) :
    np_argmax (softmax_numpy x) = np_argmax x := by
  rw [softmax_numpy_eq]
  exact np_argmax_map (softmax_strictMono x h) x

lemma softmax_sum_eq_one (x : List ℝ) (h : x ≠ []) :
    (softmax_numpy x).sum = 1 := by
  rw [softmax_numpy, sum_map_div]
  exact div_self (ne_of_gt (exp_sum_pos x h))

lemma softmax_mem_unit (x : List ℝ) (h : x ≠ []) :
    ∀ p ∈ softmax_numpy x, 0 ≤ p ∧ p ≤ 1 := by
  intro p hp
  rw [softmax_numpy] at hp
  rcases List.mem_map.mp hp with ⟨v, hv, rfl⟩
  have hS := exp_sum_pos x h
  have hvpos : 0 < v := by
    rcases List.mem_map.mp hv with ⟨a, _, rfl⟩
    exact Real.exp_pos a
  have hvle : v ≤ (x.map Real.exp).sum := by
    apply List.single_le_sum _ _ hv
    intro y hy
    rcases List.mem_map.mp hy with ⟨a, _, rfl⟩
    exact le_of_lt (Real.exp_pos a)
  constructor
  · positivity
  · rw [div_le_one hS]
    exact hvle

/-- Membership in the multi-label selection loop: exactly the indexed scores
strictly above the threshold. -/
lemma multilabel_select_mem {α : Type} [LinearOrder α] (scores : List α) (pos_thr : α)
    (i : ℕ) (s : α) :
    (i, s) ∈ multilabel_select scores pos_thr ↔ scores[i]? = some s ∧ pos_thr < s := by
  rw [multilabel_select, List.mem_filter]
  simp [List.mk_mem_enum_iff_getElem?]

/-- The multi-label selection loop emits indices in strictly ascending order. -/
lemma multilabel_select_sorted {α : Type} [LinearOrder α] (scores : List α) (pos_thr : α) :
    ((multilabel_select scores pos_thr).map Prod.fst).Sorted (· < ·) := by
  have hsub : List.Sublist ((multilabel_select scores pos_thr).map Prod.fst)
      (scores.enum.map Prod.fst) := (List.filter_sublist _).map _
  have hrange : scores.enum.map Prod.fst = List.range scores.length := by
    simp [List.enum_map_fst]
  rw [hrange] at hsub
  exact (List.sorted_lt_range _).sublist hsub

/-- `sigmoid_numpy(0) = 1 / (1 + exp(0)) = 0.5` exactly. -/
lemma sigmoid_zero : sigmoid_numpy 0 = 1 / 2 := by
  simp [sigmoid_numpy, Real.exp_zero]
  norm_num

/-! ### Claim theorems: post-processing -/

/-- C4 counterexample: a one-entry output vector summing to `1.010005` is
outside the claimed absolute tolerance `0.01` (so the claim demands the
activation branch), yet the code's `np.isclose(sum, 1.0, atol=0.01)` —
whose effective tolerance is `0.01 + 1e-05 * |1.0| = 0.01001` — accepts it
and skips activation. -/
theorem postprocess_activate_abs_tol_cex :
    postprocess_activate [(1 + 2001 / 200000 : ℝ)] = false ∧
    ¬ (|([(1 + 2001 / 200000 : ℝ)].sum) - 1| ≤ 1 / 100) := by
  constructor
  · simp [postprocess_activate, np_isclose, abs_one]
    rw [abs_of_pos (by norm_num)]
    norm_num
  · rw [List.sum_cons, List.sum_nil, add_zero,
      show (1 + 2001 / 200000 - 1 : ℝ) = 2001 / 200000 by norm_num,
      abs_of_pos (by norm_num)]
    norm_num

/-- C4 (amended): the activation decision of `NewClassification.postprocess`
skips activation exactly when `|sum(outputs) - 1| ≤ 0.01 + 1e-05 * |1.0|`
(numpy's `isclose` with `atol = 0.01` keeps the default relative tolerance
`rtol = 1e-05`, so the absolute tolerance is `0.01001`, not `0.01`).
A vector summing to `1.00005` skips activation, a vector summing to `3.0`
selects the activation branch, and the decision is total — it only chooses
the branch and never fails. -/
theorem postprocess_activate_spec (outputs : List ℝ) :
    (postprocess_activate outputs = false ↔
      |outputs.sum - 1| ≤ 1 / 100 + 1 / 100000 * |(1 : ℝ)|) ∧
    postprocess_activate [(1 + 1 / 20000 : ℝ)] = false ∧
    postprocess_activate [(3 : ℝ)] = true ∧
    ∀ (mc_sel : List ℝ → ℕ → Bool → List (ℕ × ℝ)) (ml : Bool) (topk : ℕ) (a0 : Bool),
      (postprocess mc_sel ml topk a0 outputs).1 = postprocess_activate outputs := by
  refine ⟨?_, ?_, ?_, fun mc_sel ml topk a0 => rfl⟩
  · simp [postprocess_activate, np_isclose, abs_one]
  · simp [postprocess_activate, np_isclose, abs_one]
    rw [abs_of_pos (by norm_num)]
    norm_num
  · simp [postprocess_activate, np_isclose, abs_one]
    rw [abs_of_pos (by norm_num)]
    norm_num

/-- C9: `NewClassification.postprocess` is deterministic across calls despite
the mutable `self.activate` field: the flag is recomputed from the current
outputs before any use, so the full result (new flag and predictions) is
independent of the flag value left by any earlier call, for any fixed
multilabel/topk configuration and any fixed (deterministic) multi-class
selector implementation. -/
theorem postprocess_deterministic
    (mc_sel : List ℝ → ℕ → Bool → List (ℕ × ℝ)) (multilabel : Bool) (topk : ℕ)
    (a1 a2 : Bool) (outputs : List ℝ) :
    postprocess mc_sel multilabel topk a1 outputs =
      postprocess mc_sel multilabel topk a2 outputs ∧
    (postprocess mc_sel multilabel topk a1 outputs).1 = postprocess_activate outputs :=
  ⟨rfl, rfl⟩

/-- C6: multi-label selection returns exactly the classes whose
(sigmoid-activated, when activation applies) score strictly exceeds
`pos_thr`, in ascending class-index order; a class scoring exactly the
threshold is excluded (`sigmoid(0) = 0.5` is not returned at the default
threshold `0.5`), and the empty result is valid — no substitute label is
added. -/
theorem get_multilabel_predictions_spec (logits : List ℝ) (pos_thr : ℝ)
    (activate : Bool) :
    (∀ i s, (i, s) ∈ get_multilabel_predictions logits pos_thr activate ↔
      ((if activate then logits.map sigmoid_numpy else logits)[i]? = some s ∧
        pos_thr < s)) ∧
    ((get_multilabel_predictions logits pos_thr activate).map Prod.fst).Sorted (· < ·) ∧
    get_multilabel_predictions [(0 : ℝ)] (1 / 2) true = [] ∧
    get_multilabel_predictions [] pos_thr activate = [] := by
  refine ⟨?_, ?_, ?_, ?_⟩
  · intro i s
    rw [get_multilabel_predictions]
    exact multilabel_select_mem _ pos_thr i s
  · exact multilabel_select_sorted _ pos_thr
  · rw [get_multilabel_predictions]
    simp only [if_true, List.map_cons, List.map_nil, sigmoid_zero]
    rw [multilabel_select]
    simp
  · rw [get_multilabel_predictions]
    cases activate <;> simp [multilabel_select]

/-- C7: on every non-empty logits vector, `softmax_numpy` (plain
`exp` / `sum(exp)`, no stabilization) produces entries in `[0, 1]` summing to
exactly `1` — in particular within `1e-05` of `1.0`.  (numpy would warn and
divide by zero on an empty vector; nonemptiness matches `num_classes > 0`.) -/
theorem softmax_numpy_normalized (x : List ℝ) (h : x ≠ []) :
    (∀ p ∈ softmax_numpy x, 0 ≤ p ∧ p ≤ 1) ∧
    (softmax_numpy x).sum = 1 ∧ |(softmax_numpy x).sum - 1| ≤ 1 / 100000 :=
  ⟨softmax_mem_unit x h, softmax_sum_eq_one x h, by
    rw [softmax_sum_eq_one x h]
    norm_num⟩

/-- Witness for C7 at the one-entry vector `[0.0]`. -/
theorem softmax_numpy_normalized_witness :
    ([(0 : ℝ)] ≠ []) ∧
    ((∀ p ∈ softmax_numpy [(0 : ℝ)], 0 ≤ p ∧ p ≤ 1) ∧
     (softmax_numpy [(0 : ℝ)]).sum = 1 ∧
     |(softmax_numpy [(0 : ℝ)]).sum - 1| ≤ 1 / 100000) :=
  ⟨by simp, softmax_numpy_normalized [(0 : ℝ)] (by simp)⟩

/-- C10: in the label-entity multi-class selector the winning index is
computed by `np.argmax` on the raw logits before softmax is applied, and this
equals the argmax of the softmax-activated probabilities (softmax is strictly
order-preserving), so the returned (index, probability) pair carries the
highest reported probability. -/
theorem get_multiclass_argmax_before_softmax (logits : List ℝ) (h : logits ≠ []) :
    np_argmax (softmax_numpy logits) = np_argmax logits ∧
    get_multiclass_predictions logits true =
      [(np_argmax logits, (softmax_numpy logits).getD (np_argmax logits) 0)] ∧
    ∀ p ∈ softmax_numpy logits,
      p ≤ (softmax_numpy logits).getD (np_argmax logits) 0 := by
  have hmm := softmax_argmax logits h
  have hne : softmax_numpy logits ≠ [] := by
    rw [softmax_numpy]
    simp [h]
  refine ⟨hmm, rfl, ?_⟩
  intro p hp
  obtain ⟨m, hm, rfl⟩ := List.mem_iff_getElem.mp hp
  have hspec := np_argmax_spec (0 : ℝ) (softmax_numpy logits) hne
  rw [hmm] at hspec
  have := hspec.2.1 m hm
  rwa [List.getD_eq_getElem _ _ hm] at this

/-- Witness for C10 at the one-entry vector `[0.0]`. -/
theorem get_multiclass_argmax_before_softmax_witness :
    ([(0 : ℝ)] ≠ []) ∧
    (np_argmax (softmax_numpy [(0 : ℝ)]) = np_argmax [(0 : ℝ)] ∧
     get_multiclass_predictions [(0 : ℝ)] true =
       [(np_argmax [(0 : ℝ)], (softmax_numpy [(0 : ℝ)]).getD (np_argmax [(0 : ℝ)]) 0)] ∧
     ∀ p ∈ softmax_numpy [(0 : ℝ)],
       p ≤ (softmax_numpy [(0 : ℝ)]).getD (np_argmax [(0 : ℝ)]) 0) :=
  ⟨by simp, get_multiclass_argmax_before_softmax [(0 : ℝ)] (by simp)⟩

/-- C5 counterexample (top-k variant): on the tied logits `[0.5, 0.5, 0.1]`
the index array `[2, 0, 1]` satisfies numpy's documented contract for
`np.argpartition(scores, -1)` (a permutation of `range(3)` whose last entry
indexes a maximum), yet the top-1 selection built on it returns index `1`,
not the lowest tied index `0`.  numpy leaves the order within the partitions
undefined, so the claimed index-0 tie-break is not guaranteed on the top-k
path. -/
theorem multiclass_topk_tie_cex :
    ArgpartitionLastSpec [(0.5 : ℝ), 0.5, 0.1] [2, 0, 1] ∧
    get_multiclass_predictions_topk1 [(0.5 : ℝ), 0.5, 0.1] false [2, 0, 1] =
      [(1, 0.5)] := by
  constructor
  · constructor
    · decide
    · intro j hj
      fin_cases hj <;> norm_num [List.getD]
  · norm_num [get_multiclass_predictions_topk1, List.getD]

/-- C5 (amended): the single-best path (`np.argmax`) returns exactly one
prediction, the first index attaining the maximum — on ties the lowest index,
so `[0.5, 0.5, 0.1]` yields index `0`.  The top-k variant at `topk = 1` also
returns exactly one prediction whose score is a maximum of the vector, but
for any conforming `np.argpartition` result only *some* maximising index is
guaranteed, not the lowest (see the counterexample). -/
theorem multiclass_top1_first_max (logits : List ℝ) (h : logits ≠ []) :
    get_multiclass_predictions logits false =
      [(np_argmax logits, logits.getD (np_argmax logits) 0)] ∧
    np_argmax logits < logits.length ∧
    (∀ m, m < logits.length → logits.getD m 0 ≤ logits.getD (np_argmax logits) 0) ∧
    (∀ m, m < np_argmax logits → logits.getD m 0 < logits.getD (np_argmax logits) 0) ∧
    np_argmax [(0.5 : ℝ), 0.5, 0.1] = 0 ∧
    ∀ perm, ArgpartitionLastSpec logits perm →
      get_multiclass_predictions_topk1 logits false perm =
        [(perm.getD (perm.length - 1) 0,
          logits.getD (perm.getD (perm.length - 1) 0) 0)] ∧
      ∀ m, m < logits.length →
        logits.getD m 0 ≤ logits.getD (perm.getD (perm.length - 1) 0) 0 := by
  have hspec := np_argmax_spec (0 : ℝ) logits h
  refine ⟨rfl, hspec.1, hspec.2.1, hspec.2.2, by norm_num [np_argmax, argmaxFrom], ?_⟩
  intro perm hperm
  refine ⟨rfl, ?_⟩
  intro m hm
  apply hperm.2
  rw [hperm.1.mem_iff, List.mem_range]
  exact hm

/-- Witness for C5 (amended) at the tied vector `[0.5, 0.5, 0.1]`. -/
theorem multiclass_top1_first_max_witness :
    ([(0.5 : ℝ), 0.5, 0.1] ≠ []) ∧
    (get_multiclass_predictions [(0.5 : ℝ), 0.5, 0.1] false =
      [(np_argmax [(0.5 : ℝ), 0.5, 0.1],
        [(0.5 : ℝ), 0.5, 0.1].getD (np_argmax [(0.5 : ℝ), 0.5, 0.1]) 0)] ∧
    np_argmax [(0.5 : ℝ), 0.5, 0.1] < [(0.5 : ℝ), 0.5, 0.1].length ∧
    (∀ m, m < [(0.5 : ℝ), 0.5, 0.1].length →
      [(0.5 : ℝ), 0.5, 0.1].getD m 0 ≤
        [(0.5 : ℝ), 0.5, 0.1].getD (np_argmax [(0.5 : ℝ), 0.5, 0.1]) 0) ∧
    (∀ m, m < np_argmax [(0.5 : ℝ), 0.5, 0.1] →
      [(0.5 : ℝ), 0.5, 0.1].getD m 0 <
        [(0.5 : ℝ), 0.5, 0.1].getD (np_argmax [(0.5 : ℝ), 0.5, 0.1]) 0) ∧
    np_argmax [(0.5 : ℝ), 0.5, 0.1] = 0 ∧
    ∀ perm, ArgpartitionLastSpec [(0.5 : ℝ), 0.5, 0.1] perm →
      get_multiclass_predictions_topk1 [(0.5 : ℝ), 0.5, 0.1] false perm =
        [(perm.getD (perm.length - 1) 0,
          [(0.5 : ℝ), 0.5, 0.1].getD (perm.getD (perm.length - 1) 0) 0)] ∧
      ∀ m, m < [(0.5 : ℝ), 0.5, 0.1].length →
        [(0.5 : ℝ), 0.5, 0.1].getD m 0 ≤
          [(0.5 : ℝ), 0.5, 0.1].getD (perm.getD (perm.length - 1) 0) 0) :=
  ⟨by simp, multiclass_top1_first_max [(0.5 : ℝ), 0.5, 0.1] (by simp)⟩

end DeepObjectReid
